import Mathlib

/-!
# Shallow embedding of the `beetree` B+-tree map (`src/lib.rs`)

The source is a partially implemented B+-tree map `BTreeMap<K, V>` with

  * `MIN_LEN = 4`, `MAX_LEN = MIN_LEN * 2 - 1 = 7`;
  * leaves `Leaf` holding an `ArrayVec<[(K, V); MAX_LEN]>` plus two `Weak`
    neighbour links (`left`, `right`), behind an `UnsafeCell` guarded by the
    zero-size `Token`;
  * internal nodes `Intra` holding `heads : ArrayVec<[(Node, Rc<Leaf>); MAX_LEN-1]>`
    and a trailing `tail : Node`;
  * `Node::insert` implemented only for the `Leaf` variant (there is no `Intra`
    match arm), and `Node::remove` being `unimplemented!()`.

Embedding choices:

  * Keys: the source is generic over `K : Ord + Eq` and queries `Q` with
    `K : Borrow<Q>`.  We instantiate `K := Nat × Nat`, where the first
    component is the ordering key (what `Ord`/`Eq`/`Borrow` observe) and the
    second component is an inert tag modelling the identity of the key
    *object* (two distinct `K` objects may compare equal; `mem::swap` in the
    duplicate branch replaces the stored key object).  Queries are the bare
    `Nat` ordering key.  Values are `Nat`.
  * `Rc<Leaf>`/`Weak<Leaf>`: leaves live in a heap (`List LeafData`) addressed
    by allocation index; an `Rc` is an index, a `Weak` is an `Option` index
    with `none` for `Weak::new()` (never upgradeable, as produced by
    `Leaf::new`/`Leaf::with_data`).  Reference identity of leaves is index
    equality.  `Rc` dereference never dangles in Rust, and the code never
    frees a leaf, so a total `getD` lookup is faithful.
  * The `Token` is the state-threading itself and has no runtime content.
  * Panics (`unimplemented!()`, the missing `Intra` match arm of
    `Node::insert`, `ArrayVec::insert` with an out-of-bounds index, and
    indexing `data[0]` of an empty leaf) are modelled by `Option`: `none`
    means the operation panics, `some r` that it returns `r`.
-/

def MIN_LEN : Nat := 4

def MAX_LEN : Nat := MIN_LEN * 2 - 1

/-- A key object: `(ordering key, object tag)`.  `Ord`, `Eq` and
`Borrow::borrow` observe only the first component; the tag models which
concrete `K` object is stored. -/
abbrev Key := Nat × Nat

/-- One `(K, V)` pair of a leaf's `data` array. -/
abbrev Entry := Key × Nat

/-- The ordering key of an entry, i.e. `entry.0.borrow()` in the source. -/
def keyOf (e : Entry) : Nat := e.fst.fst

/-- Struct `LeafData`: the interior of a leaf — `data: ArrayVec<[(K,V); MAX_LEN]>`
plus the two `Weak` ring links `left` and `right` (`none` = `Weak::new()`). -/
structure LeafData where
  data : List Entry
  left : Option Nat
  right : Option Nat
deriving Repr, DecidableEq

/-- The leaf heap: all leaves ever allocated with `Rc::new`, addressed by
allocation index. -/
abbrev Heap := List LeafData

/-- Dereference an `Rc<Leaf>`/upgraded `Weak` (total: `Rc` cannot dangle and
the code never drops a leaf while the map is alive). -/
def getLeaf (h : Heap) (id : Nat) : LeafData := h.getD id ⟨[], none, none⟩

/-- Write back a leaf's interior through `Leaf::get_mut`. -/
def setLeaf (h : Heap) (id : Nat) (ld : LeafData) : Heap := h.set id ld

mutual

/-- Enum `Node<K, V>` with variants `Intra(Box<Intra<K,V>>)` and `Leaf(Rc<Leaf<K,V>>)`.
An `Intra` carries its `heads` sequence and `tail` child directly. -/
inductive Node : Type where
  | intra : Heads → Node → Node
  | leaf : Nat → Node

/-- The `heads: ArrayVec<[(Node, Rc<Leaf>); MAX_LEN - 1]>` of an `Intra`
node: a sequence of `(child, separator-leaf)` pairs. -/
inductive Heads : Type where
  | nil : Heads
  | cons : Node → Nat → Heads → Heads

end

/-- Leaf search in `Node::get`: `data.iter().find_map(|(k, v)| if k.borrow() == query ...)`. -/
def leafFind (d : List Entry) (q : Nat) : Option Entry :=
  d.find? (fun e => keyOf e == q)

mutual

/-- Function `Node::get` (`src/lib.rs:157-181`).  `some r` means the call returns `r`
(`r : Option Entry` standing for `Option<(&K, &V)>`); `none` means it panics
(only possible via `data[0]` on an empty separator leaf).  On an `Intra`
node, the heads are scanned (`Heads.get`) and a missing match falls through
to the `tail` child (`unwrap_or(&intra.tail)`). -/
def Node.get (heap : Heap) (q : Nat) : Node → Option (Option Entry)
  | .leaf id => some (leafFind (getLeaf heap id).data q)
  | .intra hs tail =>
    match Heads.get heap q hs with
    | some r => r
    | none => Node.get heap q tail

/-- The `heads.iter().find(|(_, leaf)| leaf.data[0].0.borrow() >= query)`
scan of `Node::get`: `none` means no head's separator qualified (the caller
falls through to `tail`); `some r` means the scan stopped, with `r` the
outcome of descending into that head's child (where `r = none` is the panic
of `data[0]` on an empty separator leaf). -/
def Heads.get (heap : Heap) (q : Nat) : Heads → Option (Option (Option Entry))
  | .nil => none
  | .cons child sep rest =>
    match (getLeaf heap sep).data with
    | [] => some none
    | e :: _ => if keyOf e ≥ q then some (Node.get heap q child) else Heads.get heap q rest

end

/-- Struct `BTreeMap<K, V>` with fields `token: Token`, `length: usize` and `root: Option<Node>`,
together with the heap of all allocated leaves (the `Token` is the state
threading itself). -/
structure BTreeMap where
  length : Nat
  root : Option Node
  heap : Heap

/-- Function `BTreeMap::new()`. -/
def mapNew : BTreeMap := ⟨0, none, []⟩

/-- Function `BTreeMap::len`. -/
def BTreeMap.len (m : BTreeMap) : Nat := m.length

/-- Function `BTreeMap::is_empty`. -/
def BTreeMap.isEmpty (m : BTreeMap) : Bool := m.length == 0

/-- Function `BTreeMap::get` (`src/lib.rs:40-45`): `Some(self.root.as_ref()?.get(query, &self.token)?.1)`.
Outer `none` = panic; `some r` = the call returns `r` (projected to the full
entry; the source returns only `&V`, recoverable as `(·.snd)`). -/
def BTreeMap.get (m : BTreeMap) (q : Nat) : Option (Option Entry) :=
  match m.root with
  | none => some none
  | some r => Node.get m.heap q r

/-- Function `BTreeMap::get_mut` (`src/lib.rs:47-52`): `Node::get_mut` performs the
identical traversal as `Node::get` (same routing predicate
`leaf.data[0].0.borrow() >= query`, same linear scan of the leaf), differing
from it only in Rust mutability; its shallow embedding therefore coincides
with that of `get`. -/
def BTreeMap.getMut (m : BTreeMap) (q : Nat) : Option (Option Entry) :=
  match m.root with
  | none => some none
  | some r => Node.get m.heap q r

/-- Enum `Insert<K, V>` with variants `Ok`, `Duplicated(K, V)` and `Split(Rc<Leaf>, Node)`. -/
inductive InsertResult : Type where
  | ok : InsertResult
  | duplicated : Key → Nat → InsertResult
  | split : Nat → Node → InsertResult

/-- Rust `slice::binary_search_by_key(&&entry.0, |(k, v)| k)` on the leaf's `data`.
Every call site runs it on a `data` array that is sorted with strictly
increasing keys (the invariant maintained by every reachable state on which
`Node::insert` is ever invoked), and on sorted input Rust's binary search
returns `Ok(i)` exactly when `data[i]` has the searched ordering key and
`Err(i)` with `i` the unique sorted insertion point; it is embedded as the
equivalent ordered scan computing that result. -/
def findSlot : List Entry → Nat → Sum Nat Nat
  | [], _ => .inr 0
  | e :: rest, k =>
    if keyOf e < k then
      match findSlot rest k with
      | .inl i => .inl (i + 1)
      | .inr i => .inr (i + 1)
    else if k < keyOf e then .inr 0
    else .inl 0

/-- Method `ArrayVec::insert(index, element)` on the `data` of a leaf: shifts the
tail right; panics (`none`) when `index > len` (the capacity check is done by
the callers: the non-split branch is guarded by `!leaf.data.is_full()` and
the split halves never exceed `MAX_LEN`). -/
def listInsertAt (l : List Entry) (i : Nat) (e : Entry) : Option (List Entry) :=
  if i ≤ l.length then some (l.take i ++ e :: l.drop i) else none

/-- Function `Node::insert` (`src/lib.rs:209-238`).  Result `none` = panic.  The
source's `match self` has a `Node::Leaf` arm only: the `Intra` case is not
implemented (no match arm exists), modelled as a panic.  On a leaf:
binary-search the key; on `Ok(idx)` `mem::swap` the stored entry with the new
one and report `Duplicated` with the old key object and value; on `Err(idx)`
with spare capacity insert in place; otherwise split exactly as the source
does (`drain(MIN_LEN..)` / `drain((MIN_LEN+1)..)` and the corresponding
`insert` calls), allocate the right half as a fresh `Rc` leaf via
`Leaf::with_data` (ring links `Weak::new()`), and report
`Split(new_leaf.clone(), Node::Leaf(new_leaf))`. -/
def Node.insert (heap : Heap) (entry : Entry) : Node → Option (InsertResult × Heap)
  | .intra _ _ => none
  | .leaf id =>
    let ld := getLeaf heap id
    match findSlot ld.data (keyOf entry) with
    | .inl idx =>
      let old := ld.data.getD idx default
      some (.duplicated old.fst old.snd, setLeaf heap id { ld with data := ld.data.set idx entry })
    | .inr idx =>
      if ld.data.length < MAX_LEN then
        match listInsertAt ld.data idx entry with
        | some d => some (.ok, setLeaf heap id { ld with data := d })
        | none => none
      else
        if idx < MIN_LEN then
          let newData := ld.data.drop MIN_LEN
          match listInsertAt (ld.data.take MIN_LEN) idx entry with
          | some d =>
            let newId := heap.length
            some (.split newId (.leaf newId),
              setLeaf heap id { ld with data := d } ++ [⟨newData, none, none⟩])
          | none => none
        else
          let kept := ld.data.take (MIN_LEN + 1)
          let moved := ld.data.drop (MIN_LEN + 1)
          match listInsertAt moved (idx - MIN_LEN) entry with
          | some d =>
            let newId := heap.length
            some (.split newId (.leaf newId),
              setLeaf heap id { ld with data := kept } ++ [⟨d, none, none⟩])
          | none => none

/-- Function `BTreeMap::insert` (`src/lib.rs:54-79`).  `none` = panic; `some (r, m)` =
returns `r : Option<V>` leaving the map in state `m`.  `get_or_insert_with`
allocates a fresh empty root leaf when there is none; on `Insert::Split` the
old root becomes the single head paired with the separator leaf and the
returned right node becomes the tail of a new `Intra` root. -/
def BTreeMap.insert (m : BTreeMap) (entry : Entry) : Option (Option Nat × BTreeMap) :=
  let rh : Node × Heap :=
    match m.root with
    | some r => (r, m.heap)
    | none => (Node.leaf m.heap.length, m.heap ++ [⟨[], none, none⟩])
  match Node.insert rh.snd entry rh.fst with
  | none => none
  | some (.ok, heap) =>
    some (none, ⟨m.length + 1, some rh.fst, heap⟩)
  | some (.duplicated _ v, heap) =>
    some (some v, ⟨m.length, some rh.fst, heap⟩)
  | some (.split sep right, heap) =>
    some (none, ⟨m.length + 1, some (.intra (.cons rh.fst sep .nil) right), heap⟩)

/-- Function `BTreeMap::remove` (`src/lib.rs:81-88`) over the source's `Node::remove`
(`src/lib.rs:240-245`), whose body is `unimplemented!()`: with no root the
`self.root.as_mut()?` short-circuit returns `None` untouched; with any root
the call panics (`none`). -/
def BTreeMap.remove (m : BTreeMap) (q : Nat) : Option (Option Nat × BTreeMap) :=
  match m.root with
  | none => some (none, m)
  | some _ => none

/-! ## Observations of the tree -/

mutual

/-- All entries stored in the subtree, in tree order (children of `heads`
left to right, then `tail`). -/
def Node.entries (heap : Heap) : Node → List Entry
  | .leaf id => (getLeaf heap id).data
  | .intra hs tail => Heads.entries heap hs ++ Node.entries heap tail

/-- Entries of the children of a `heads` sequence, left to right. -/
def Heads.entries (heap : Heap) : Heads → List Entry
  | .nil => []
  | .cons child _ rest => Node.entries heap child ++ Heads.entries heap rest

end

/-- All entries stored in the map. -/
def BTreeMap.entries (m : BTreeMap) : List Entry :=
  match m.root with
  | none => []
  | some r => Node.entries m.heap r

/-- Whether some entry with ordering key `k` is stored in the map. -/
def BTreeMap.hasKey (m : BTreeMap) (k : Nat) : Bool :=
  m.entries.any (fun e => keyOf e == k)

/-- The first stored entry with ordering key `k`, in tree order. -/
def BTreeMap.findEntry (m : BTreeMap) (k : Nat) : Option Entry :=
  m.entries.find? (fun e => keyOf e == k)

mutual

/-- The leftmost leaf of a subtree (descend into the first child of `heads`,
or into `tail` when `heads` is empty). -/
def Node.leftmostLeaf : Node → Nat
  | .leaf id => id
  | .intra hs tail =>
    match Heads.leftmost hs with
    | some n => n
    | none => Node.leftmostLeaf tail

/-- The leftmost leaf under the first child of a `heads` sequence, if any. -/
def Heads.leftmost : Heads → Option Nat
  | .nil => none
  | .cons child _ _ => some (Node.leftmostLeaf child)

end

mutual

/-- The separator-identity invariant of §3 of the spec: in every internal
node, each `(child, separator)` pair's separator is (by reference identity)
the leftmost leaf of the next child in sequence — the next pair's child, or
`tail` for the last pair. -/
def Node.sepOk : Node → Bool
  | .leaf _ => true
  | .intra hs tail => Heads.sepOk (Node.leftmostLeaf tail) hs && Node.sepOk tail

/-- Check `Node.sepOk` on a `heads` sequence; the first argument is the leftmost
leaf of the enclosing node's `tail` (the follower of the last pair). -/
def Heads.sepOk (tailLeft : Nat) : Heads → Bool
  | .nil => true
  | .cons child sep rest =>
    let nextLeft := match rest with
      | .nil => tailLeft
      | .cons c _ _ => Node.leftmostLeaf c
    Node.sepOk child && (sep == nextLeft) && Heads.sepOk tailLeft rest

end

/-- Check `Node.sepOk` lifted to the optional root. -/
def BTreeMap.sepOk (m : BTreeMap) : Bool :=
  match m.root with
  | none => true
  | some r => Node.sepOk r

/-- Strictly increasing ordering keys along a list of entries (the sorted,
duplicate-free layout of a leaf's `data`). -/
def SortedKeys (d : List Entry) : Prop :=
  List.Pairwise (fun a b => keyOf a < keyOf b) d

instance : DecidablePred SortedKeys := fun d =>
  inferInstanceAs (Decidable (List.Pairwise _ d))

/-! ## The spec-modelled removal

`Node::remove` (`src/lib.rs:240-245`) has no body in the source — it is
`unimplemented!()`; only its declaration and its caller `BTreeMap::remove`
exist.  For the claims about removal semantics we model the missing part
from the spec. -/

mutual

/-- Modelled from the spec: the missing body of `Node::remove` (§4.1:
"descend to the owning leaf, delete the entry; ... Returns the removed
value, or absence if the key was not present").  In a leaf, the entry whose
key matches the query is deleted and returned; in an internal node the
descent reaches whichever child's subtree owns the key (children searched in
sequence order, then `tail`).  Rebalancing (§4.5) only moves entries between
leaves and never changes the returned value or the key set, so it is not
modelled. -/
def Node.removeSpec (heap : Heap) (q : Nat) : Node → Option Entry × Heap
  | .leaf id =>
    let ld := getLeaf heap id
    match ld.data.find? (fun e => keyOf e == q) with
    | some e =>
      (some e, setLeaf heap id { ld with data := ld.data.eraseP (fun e => keyOf e == q) })
    | none => (none, heap)
  | .intra hs tail =>
    match Heads.removeSpec heap q hs with
    | (some e, h) => (some e, h)
    | (none, h) => Node.removeSpec h q tail

/-- Modelled from the spec: descent of `Node.removeSpec` through the
children of a `heads` sequence, in order. -/
def Heads.removeSpec (heap : Heap) (q : Nat) : Heads → Option Entry × Heap
  | .nil => (none, heap)
  | .cons child _ rest =>
    match Node.removeSpec heap q child with
    | (some e, h) => (some e, h)
    | (none, h) => Heads.removeSpec h q rest

end

/-- Function `BTreeMap::remove` (`src/lib.rs:81-88`) with the missing `Node::remove`
body modelled from the spec (`Node.removeSpec`): `as_mut()?` short-circuits
on an absent root; otherwise the node-level result is unwrapped, `length` is
decremented only on an actual removal, and the removed value is returned. -/
def BTreeMap.removeModelled (m : BTreeMap) (q : Nat) : Option Nat × BTreeMap :=
  match m.root with
  | none => (none, m)
  | some r =>
    match Node.removeSpec m.heap q r with
    | (some e, heap) => (some e.snd, ⟨m.length - 1, some r, heap⟩)
    | (none, heap) => (none, ⟨m.length, some r, heap⟩)

/-! ## Operation sequences -/

/-- One public mutating operation of the map. -/
inductive Op : Type where
  | ins : Key → Nat → Op
  | del : Nat → Op

/-- Run one operation with the source semantics (`none` = the call panics). -/
def step (m : BTreeMap) : Op → Option BTreeMap
  | .ins k v => (BTreeMap.insert m (k, v)).map (·.snd)
  | .del q => (BTreeMap.remove m q).map (·.snd)

/-- Run a sequence of operations from a given state. -/
def runFrom (m : BTreeMap) : List Op → Option BTreeMap
  | [] => some m
  | op :: rest =>
    match step m op with
    | none => none
    | some m => runFrom m rest

/-- Run a sequence of operations from `BTreeMap::new()`.  `run ops = some m`
states that `m` is reached without any panic: `m` is a reachable map. -/
def run (ops : List Op) : Option BTreeMap := runFrom mapNew ops

/-! ## Concrete scenarios -/

/-- Insertions of keys `2, 3, ..., 8` and then `1` (values `10·k`, key tags
`0`): the eighth insert hits a full root leaf at position `0 < MIN_LEN` and
exercises the only non-panicking split branch. -/
def opsSplitLow : List Op :=
  [.ins (2, 0) 20, .ins (3, 0) 30, .ins (4, 0) 40, .ins (5, 0) 50,
   .ins (6, 0) 60, .ins (7, 0) 70, .ins (8, 0) 80, .ins (1, 0) 10]

/-- The state reached by `opsSplitLow`. -/
def stSplit : BTreeMap := (run opsSplitLow).getD mapNew

/-- Insertions of keys `10, 20, ..., 70` (values `= key`, key tags `0`)
filling the root leaf. -/
def opsFull : List Op :=
  [.ins (10, 0) 10, .ins (20, 0) 20, .ins (30, 0) 30, .ins (40, 0) 40,
   .ins (50, 0) 50, .ins (60, 0) 60, .ins (70, 0) 70]

/-- The full-root-leaf state reached by `opsFull`. -/
def stFull : BTreeMap := (run opsFull).getD mapNew

/-- The state reached by `opsFull` followed by inserting key `55`: a split
whose insertion position falls in the upper half (`idx = 5 ≥ MIN_LEN`). -/
def stSplitHigh : BTreeMap := (run (opsFull ++ [.ins (55, 0) 55])).getD mapNew

/-- The state reached by `opsFull` followed by inserting key `45`: a split
whose insertion position is exactly `MIN_LEN` (`idx = 4`). -/
def stSplitMid : BTreeMap := (run (opsFull ++ [.ins (45, 0) 45])).getD mapNew

/-- Insertions of keys `1, 2, ..., 7` in increasing order (values `10·k`):
the first seven steps of the spec's concrete `1..8` ascending scenario. -/
def opsAsc7 : List Op :=
  [.ins (1, 0) 10, .ins (2, 0) 20, .ins (3, 0) 30, .ins (4, 0) 40,
   .ins (5, 0) 50, .ins (6, 0) 60, .ins (7, 0) 70]

/-- The state after inserting `1..7` in increasing order. -/
def stAsc7 : BTreeMap := (run opsAsc7).getD mapNew

/-- The aliasing reported by a leaf split: an `Insert::Split(leaf, node)`
result must carry a node that wraps the very same leaf (`new_leaf.clone()`
and `Node::Leaf(new_leaf)` are the same `Rc`).  Non-split results satisfy it
vacuously. -/
def splitReportOk : InsertResult → Bool
  | .split s (.leaf t) => s == t
  | .split _ _ => false
  | _ => true

/-- The reachability invariant: states produced from `BTreeMap::new()` by
non-panicking operations have either no root, or a root leaf whose `data` is
sorted with strictly increasing keys, or the `Intra` root produced by the
single implemented (root-leaf) split: one `(old-root-leaf, separator)` head
whose separator is the same leaf as the tail child. -/
def MapInv (m : BTreeMap) : Prop :=
  match m.root with
  | none => True
  | some (.leaf id) => SortedKeys (getLeaf m.heap id).data
  | some (.intra hs tail) => ∃ l s, hs = .cons (.leaf l) s .nil ∧ tail = .leaf s

example : BTreeMap.insert mapNew ((3, 0), 30) =
    some (none, ⟨1, some (.leaf 0), [⟨[((3, 0), 30)], none, none⟩]⟩) := rfl

example : run opsSplitLow = some stSplit := rfl

example : stSplit =
    ⟨8, some (.intra (.cons (.leaf 0) 1 .nil) (.leaf 1)),
     [⟨[((1, 0), 10), ((2, 0), 20), ((3, 0), 30), ((4, 0), 40), ((5, 0), 50)], none, none⟩,
      ⟨[((6, 0), 60), ((7, 0), 70), ((8, 0), 80)], none, none⟩]⟩ := rfl

example : BTreeMap.get stSplit 6 = some none := rfl

example : BTreeMap.get stSplit 7 = some (some ((7, 0), 70)) := rfl

example : stSplitHigh.heap.map (fun ld => ld.data.map keyOf) =
    [[10, 20, 30, 40, 50], [60, 55, 70]] := rfl

example : step stFull (.ins (80, 0) 80) = none := rfl

/-! ## Claim theorems: concrete evaluations of the code -/

/-- C1: the routing scan of `Node::get` selects the first head whose
separator first key is `>= query`, so a query *equal* to a separator's first
key descends into the left child — which holds only strictly smaller keys —
and the lookup misses.  Concretely: insert keys `2..8` then `1` (the eighth
insert splits the root leaf; key `6` with value `60` becomes the first key
of the separator leaf); the map reaches this state without panicking, the
entry `((6,0),60)` is stored in the tree, no `remove` ever ran, yet
`get(6)` completes and returns absence. -/
theorem get_misses_separator_first_key :
    run opsSplitLow = some stSplit ∧
    stSplit.findEntry 6 = some ((6, 0), 60) ∧
    BTreeMap.get stSplit 6 = some none :=
  ⟨rfl, rfl, rfl⟩

/-- C2: inserting `1..8` in increasing order does not split the root leaf —
it panics on the eighth insert.  After `1..7` the map is a sorted full root
leaf with `len() = k` after `k` inserts, and the eighth insert hits the
`idx = 7 ≥ MIN_LEN` split branch, which calls `ArrayVec::insert(7 - MIN_LEN
= 3, _)` on the two-element right half and dies on the index bound. -/
theorem eighth_ascending_insert_panics :
    run opsAsc7 = some stAsc7 ∧
    (List.range 8).map (fun n => (run (opsAsc7.take n)).map BTreeMap.len) =
      [some 0, some 1, some 2, some 3, some 4, some 5, some 6, some 7] ∧
    stAsc7.root = some (.leaf 0) ∧
    step stAsc7 (.ins (8, 0) 80) = none :=
  ⟨rfl, rfl, rfl, rfl⟩

/-- C3: the right leaf produced by a split with insertion position
`idx < MIN_LEN` receives only `MAX_LEN - MIN_LEN = MIN_LEN - 1 = 3` entries:
after inserting `2..8` then `1`, the non-root leaf `1` (the tail child of
the new `Intra` root) holds `3 < MIN_LEN` entries, violating the occupancy
invariant for non-root leaves. -/
theorem split_right_leaf_underflows :
    run opsSplitLow = some stSplit ∧
    stSplit.root = some (.intra (.cons (.leaf 0) 1 .nil) (.leaf 1)) ∧
    (getLeaf stSplit.heap 1).data.length = 3 ∧
    ¬ MIN_LEN ≤ (getLeaf stSplit.heap 1).data.length :=
  ⟨rfl, rfl, rfl, by decide⟩

/-- C5: splitting a full leaf with insertion position in the upper half
misplaces the new entry by one slot.  Inserting `55` into the full root leaf
`10,20,...,70` (`idx = 5`) produces the right leaf `[60, 55, 70]` — not
sorted; inserting `45` instead (`idx = 4`) produces left `[10,20,30,40,50]`
and right `[45, 60, 70]`, where the left leaf's key `50` is not less than
the right leaf's key `45` and the new key's sorted position (between `40`
and `50`) falls in the kept half, not the half it was placed in. -/
theorem split_upper_half_misplaces_entry :
    (run (opsFull ++ [.ins (55, 0) 55]) = some stSplitHigh ∧
      (getLeaf stSplitHigh.heap 1).data.map keyOf = [60, 55, 70] ∧
      ¬ SortedKeys (getLeaf stSplitHigh.heap 1).data) ∧
    (run (opsFull ++ [.ins (45, 0) 45]) = some stSplitMid ∧
      (getLeaf stSplitMid.heap 0).data.map keyOf = [10, 20, 30, 40, 50] ∧
      (getLeaf stSplitMid.heap 1).data.map keyOf = [45, 60, 70] ∧
      ¬ (50 : Nat) < 45) :=
  ⟨⟨rfl, rfl, by decide⟩, ⟨rfl, rfl, rfl, by decide⟩⟩

/-- C6: no ring splicing happens at a leaf split.  `Leaf::with_data` creates
the new leaf with `left = right = Weak::new()` and `Node::insert` never
touches any `prev`/`next` link, so after the split of `opsSplitLow` the new
leaf (id `1`) has empty `prev` and `next` links — instead of `prev` aliasing
the original leaf — and the original leaf (id `0`) still has an empty `next`
link instead of one aliasing the new leaf. -/
theorem split_never_splices_ring_links :
    run opsSplitLow = some stSplit ∧
    stSplit.root = some (.intra (.cons (.leaf 0) 1 .nil) (.leaf 1)) ∧
    (getLeaf stSplit.heap 1).left = none ∧
    (getLeaf stSplit.heap 1).right = none ∧
    (getLeaf stSplit.heap 0).right = none :=
  ⟨rfl, rfl, rfl, rfl, rfl⟩

/-- C4, counterexample: on a reachable map whose root is an `Intra` node,
`Node::insert` has no match arm, so inserting an *already present* key
panics instead of returning the previously stored value: key `3` is stored
in `stSplit`, yet `insert(3, 99)` does not return. -/
theorem insert_existing_key_panics_on_intra_root :
    run opsSplitLow = some stSplit ∧
    stSplit.findEntry 3 = some ((3, 0), 30) ∧
    BTreeMap.insert stSplit ((3, 1), 99) = none :=
  ⟨rfl, rfl, rfl⟩

/-- C10, counterexample: inserting the already-present key `6` into the
reachable `Intra`-rooted map `stSplit` panics (no `Intra` arm in
`Node::insert`) instead of completing with the map unchanged apart from the
matched entry. -/
theorem duplicate_insert_panics_on_intra_root :
    run opsSplitLow = some stSplit ∧
    stSplit.hasKey 6 = true ∧
    BTreeMap.insert stSplit ((6, 1), 99) = none :=
  ⟨rfl, rfl, rfl⟩

/-! ## Lemmas: the leaf search on sorted data -/

/-- A `found` result of the leaf search points at an entry with the searched
ordering key (no sortedness needed). -/
theorem findSlot_inl_get {d : List Entry} {k i : Nat} (h : findSlot d k = .inl i) :
    ∃ e, d[i]? = some e ∧ keyOf e = k := by
  induction d generalizing i with
  | nil => simp [findSlot] at h
  | cons x rest ih =>
    unfold findSlot at h
    split at h
    · split at h
      · rename_i heq
        cases h
        rcases ih heq with ⟨e, he, hk⟩
        exact ⟨e, by simpa using he, hk⟩
      · cases h
    · split at h
      · cases h
      · cases h
        exact ⟨x, by simp, by omega⟩

/-- An insertion-point result is at most the length of the searched list. -/
theorem findSlot_inr_bound {d : List Entry} {k i : Nat} (h : findSlot d k = .inr i) :
    i ≤ d.length := by
  induction d generalizing i with
  | nil =>
    simp [findSlot] at h
    omega
  | cons x rest ih =>
    unfold findSlot at h
    split at h
    · split at h
      · cases h
      · rename_i heq
        cases h
        have := ih heq
        simp only [List.length_cons]
        omega
    · split at h
      · cases h
        simp
      · cases h

/-- On sorted data, an insertion-point result means the searched key is
absent. -/
theorem findSlot_inr_not_mem {d : List Entry} {k i : Nat} (hs : SortedKeys d)
    (h : findSlot d k = .inr i) : ∀ e ∈ d, keyOf e ≠ k := by
  induction d generalizing i with
  | nil => simp
  | cons x rest ih =>
    rcases List.pairwise_cons.mp hs with ⟨hx, hrest⟩
    unfold findSlot at h
    split at h
    · split at h
      · cases h
      · rename_i hlt heq
        cases h
        intro e he
        rcases List.mem_cons.mp he with rfl | hmem
        · omega
        · exact ih hrest heq e hmem
    · split at h
      · rename_i hnlt hgt
        cases h
        intro e he
        rcases List.mem_cons.mp he with rfl | hmem
        · omega
        · have := hx e hmem
          omega
      · cases h

/-- On sorted data, inserting an entry with key `k` at the insertion point
computed by the leaf search keeps the data sorted. -/
theorem findSlot_insert_sorted {d : List Entry} {k i : Nat} {e : Entry}
    (hs : SortedKeys d) (h : findSlot d k = .inr i) (hk : keyOf e = k) :
    SortedKeys (d.take i ++ e :: d.drop i) := by
  induction d generalizing i with
  | nil =>
    simp [findSlot] at h
    subst h
    simp [SortedKeys]
  | cons x rest ih =>
    rcases List.pairwise_cons.mp hs with ⟨hx, hrest⟩
    unfold findSlot at h
    split at h
    · split at h
      · cases h
      · rename_i hlt heq
        cases h
        simp only [List.take_succ_cons, List.drop_succ_cons, List.cons_append]
        refine List.pairwise_cons.mpr ⟨?_, ih hrest heq⟩
        intro a ha
        rcases List.mem_append.mp ha with hmem | hmem
        · exact hx a (List.take_subset _ _ hmem)
        · rcases List.mem_cons.mp hmem with rfl | hmem
          · omega
          · exact hx a (List.drop_subset _ _ hmem)
    · split at h
      · rename_i hnlt hgt
        cases h
        simp only [List.take_zero, List.drop_zero, List.nil_append]
        refine List.pairwise_cons.mpr ⟨?_, hs⟩
        intro a ha
        rcases List.mem_cons.mp ha with rfl | hmem
        · omega
        · have := hx a hmem
          omega
      · cases h

/-- Replacing an entry by one with the same ordering key keeps the data
sorted. -/
theorem set_sorted {d : List Entry} {i : Nat} {old e : Entry} (hs : SortedKeys d)
    (hget : d[i]? = some old) (hk : keyOf e = keyOf old) : SortedKeys (d.set i e) := by
  induction d generalizing i with
  | nil => simp at hget
  | cons x rest ih =>
    rcases List.pairwise_cons.mp hs with ⟨hx, hrest⟩
    cases i with
    | zero =>
      simp only [List.getElem?_cons_zero, Option.some.injEq] at hget
      subst hget
      simp only [List.set_cons_zero]
      refine List.pairwise_cons.mpr ⟨?_, hrest⟩
      intro a ha
      have := hx a ha
      omega
    | succ j =>
      simp only [List.getElem?_cons_succ] at hget
      simp only [List.set_cons_succ]
      refine List.pairwise_cons.mpr ⟨?_, ih hrest hget⟩
      intro a ha
      rcases List.mem_or_eq_of_mem_set ha with hmem | rfl
      · exact hx a hmem
      · have hold : old ∈ rest := by
          rcases List.getElem?_eq_some.mp hget with ⟨hlt, hgetl⟩
          exact hgetl ▸ List.getElem_mem hlt
        have := hx old hold
        omega

/-- On sorted data, the linear scan of `Node::get` finds exactly the entry
an index points at when that entry carries the searched key. -/
theorem sorted_find_at {d : List Entry} {i k : Nat} {e : Entry} (hs : SortedKeys d)
    (hget : d[i]? = some e) (hk : keyOf e = k) :
    d.find? (fun x => keyOf x == k) = some e := by
  induction d generalizing i with
  | nil => simp at hget
  | cons x rest ih =>
    rcases List.pairwise_cons.mp hs with ⟨hx, hrest⟩
    cases i with
    | zero =>
      simp only [List.getElem?_cons_zero, Option.some.injEq] at hget
      subst hget
      simp [List.find?_cons, hk]
    | succ j =>
      simp only [List.getElem?_cons_succ] at hget
      have hmem : e ∈ rest := by
        rcases List.getElem?_eq_some.mp hget with ⟨hlt, hgetl⟩
        exact hgetl ▸ List.getElem_mem hlt
      have hxk : keyOf x < k := hk ▸ hx e hmem
      have : (keyOf x == k) = false := by
        simp only [beq_eq_false_iff_ne, ne_eq]
        omega
      simp [List.find?_cons, this, ih hrest hget]

/-! ## Lemmas: characterizing `BTreeMap::insert` -/

/-- Inserting into a map with no root allocates an empty root leaf and fills
it with the single entry. -/
theorem insert_root_none {m : BTreeMap} (h : m.root = none) (e : Entry) :
    BTreeMap.insert m e =
      some (none, ⟨m.length + 1, some (.leaf m.heap.length),
        setLeaf (m.heap ++ [⟨[], none, none⟩]) m.heap.length ⟨[e], none, none⟩⟩) := by
  have hld : getLeaf (m.heap ++ [⟨[], none, none⟩]) m.heap.length = ⟨[], none, none⟩ := by
    simp [getLeaf, List.getD_eq_getElem?_getD, List.getElem?_concat_length]
  simp only [BTreeMap.insert, h, Node.insert, hld]
  simp [findSlot, listInsertAt, MAX_LEN, MIN_LEN]

/-- Inserting a key found in the root leaf swaps the matched entry for the
new one and returns the old value, leaving `length` and the root unchanged. -/
theorem insert_leaf_dup {m : BTreeMap} {id : Nat} (h : m.root = some (.leaf id))
    {k i : Nat} (t v : Nat) (hf : findSlot (getLeaf m.heap id).data k = .inl i) :
    BTreeMap.insert m ((k, t), v) =
      some (some ((getLeaf m.heap id).data.getD i default).snd,
        ⟨m.length, some (.leaf id),
         setLeaf m.heap id { getLeaf m.heap id with
           data := (getLeaf m.heap id).data.set i ((k, t), v) }⟩) := by
  have hk : keyOf ((k, t), v) = k := rfl
  simp only [BTreeMap.insert, h, Node.insert, hk, hf]

/-- Inserting a fresh key into a root leaf with spare capacity places it at
the computed position and increments `length`. -/
theorem insert_leaf_nonfull {m : BTreeMap} {id : Nat} (h : m.root = some (.leaf id))
    {k i : Nat} (t v : Nat) (hf : findSlot (getLeaf m.heap id).data k = .inr i)
    (hlen : (getLeaf m.heap id).data.length < MAX_LEN) :
    BTreeMap.insert m ((k, t), v) =
      some (none, ⟨m.length + 1, some (.leaf id),
        setLeaf m.heap id { getLeaf m.heap id with
          data := (getLeaf m.heap id).data.take i ++
            ((k, t), v) :: (getLeaf m.heap id).data.drop i }⟩) := by
  have hk : keyOf ((k, t), v) = k := rfl
  have hb : i ≤ (getLeaf m.heap id).data.length := findSlot_inr_bound hf
  simp only [BTreeMap.insert, h, Node.insert, hk, hf, if_pos hlen]
  simp [listInsertAt, hb]

/-- Inserting a fresh key into a full root leaf either panics or splits; when
it completes, it returns `None`, increments `length`, and installs the new
`Intra` root whose single head pairs the old root leaf with the new leaf
(allocated at index `m.heap.length`) that is also the tail child. -/
theorem insert_leaf_full_shape {m : BTreeMap} {id : Nat} (h : m.root = some (.leaf id))
    {k i : Nat} (t v : Nat) (hf : findSlot (getLeaf m.heap id).data k = .inr i)
    (hlen : ¬ (getLeaf m.heap id).data.length < MAX_LEN) :
    ∀ r m', BTreeMap.insert m ((k, t), v) = some (r, m') →
      r = none ∧ m'.length = m.length + 1 ∧
      m'.root = some (.intra (.cons (.leaf id) m.heap.length .nil) (.leaf m.heap.length)) := by
  intro r m' hins
  have hk : keyOf ((k, t), v) = k := rfl
  simp only [BTreeMap.insert, h, Node.insert, hk, hf, if_neg hlen] at hins
  split at hins
  · cases hins
  · rename_i heap heq
    exfalso
    split at heq
    · split at heq
      · simp at heq
      · cases heq
    · split at heq
      · simp at heq
      · cases heq
  · rename_i a b heap heq
    exfalso
    split at heq
    · split at heq
      · simp at heq
      · cases heq
    · split at heq
      · simp at heq
      · cases heq
  · rename_i sep right heap heq
    have hsr : sep = m.heap.length ∧ right = Node.leaf m.heap.length := by
      split at heq
      · split at heq
        · injection heq with heq
          injection heq with h1 h2
          injection h1 with ha hb
          exact ⟨ha.symm, hb.symm⟩
        · cases heq
      · split at heq
        · injection heq with heq
          injection heq with h1 h2
          injection h1 with ha hb
          exact ⟨ha.symm, hb.symm⟩
        · cases heq
    obtain ⟨rfl, rfl⟩ := hsr
    injection hins with hins
    injection hins with h1 h2
    subst h1
    subst h2
    exact ⟨rfl, rfl, rfl⟩

/-- Inserting into a map whose root is an internal node panics: the `match`
of `Node::insert` has no `Intra` arm. -/
theorem insert_intra_panics {m : BTreeMap} {hs : Heads} {tail : Node}
    (h : m.root = some (.intra hs tail)) (e : Entry) : BTreeMap.insert m e = none := by
  simp only [BTreeMap.insert, h, Node.insert]

/-- Writing a leaf back and reading it again yields the written interior. -/
theorem getLeaf_setLeaf_self {h : Heap} {id : Nat} (hid : id < h.length) (ld : LeafData) :
    getLeaf (setLeaf h id ld) id = ld := by
  simp [getLeaf, setLeaf, List.getD_eq_getElem?_getD, List.getElem?_set_self hid]

/-- A leaf index beyond the heap dereferences to the default empty leaf. -/
theorem getLeaf_out_of_range {h : Heap} {id : Nat} (hid : h.length ≤ id) :
    getLeaf h id = ⟨[], none, none⟩ := by
  simp [getLeaf, List.getD_eq_getElem?_getD, List.getElem?_eq_none hid]

/-- A non-panicking `remove` step leaves the state unchanged: with no root
it returns `None` directly, with a root `Node::remove` is `unimplemented!()`. -/
theorem step_del_eq {m m' : BTreeMap} {q : Nat} (h : step m (.del q) = some m') : m' = m := by
  simp only [step, BTreeMap.remove] at h
  split at h
  · simp at h
    exact h.symm
  · simp at h

/-- Preservation of the reachability invariant by one non-panicking step. -/
theorem step_inv {m m' : BTreeMap} {op : Op} (h : step m op = some m') (hI : MapInv m) :
    MapInv m' := by
  cases op with
  | del q =>
    rw [step_del_eq h]
    exact hI
  | ins k v =>
    obtain ⟨k1, k2⟩ := k
    simp only [step] at h
    rcases hr : m.root with _ | nd
    · rw [insert_root_none hr ((k1, k2), v)] at h
      simp only [Option.map_some'] at h
      injection h with h
      subst h
      have hlt : m.heap.length < (m.heap ++ [(⟨[], none, none⟩ : LeafData)]).length := by
        simp
      simp only [MapInv, getLeaf_setLeaf_self hlt]
      simp [SortedKeys]
    · cases nd with
      | intra hs tail =>
        rw [insert_intra_panics hr] at h
        simp at h
      | leaf id =>
        have hIl : SortedKeys (getLeaf m.heap id).data := by
          simpa [MapInv, hr] using hI
        rcases hfs : findSlot (getLeaf m.heap id).data k1 with i | i
        · -- duplicate: entry replaced in place
          rw [insert_leaf_dup hr k2 v hfs] at h
          simp only [Option.map_some'] at h
          injection h with h
          subst h
          have hid : id < m.heap.length := by
            by_contra hge
            rw [getLeaf_out_of_range (by omega)] at hfs
            simp [findSlot] at hfs
          rcases findSlot_inl_get hfs with ⟨old, hold, holdk⟩
          simp only [MapInv, getLeaf_setLeaf_self hid]
          exact set_sorted hIl hold (by simpa [keyOf] using holdk.symm)
        · by_cases hfull : (getLeaf m.heap id).data.length < MAX_LEN
          · -- spare capacity: ordered insertion in place
            rw [insert_leaf_nonfull hr k2 v hfs hfull] at h
            simp only [Option.map_some'] at h
            injection h with h
            subst h
            by_cases hid : id < m.heap.length
            · simp only [MapInv, getLeaf_setLeaf_self hid]
              exact findSlot_insert_sorted hIl hfs rfl
            · have hle : m.heap.length ≤ id := by omega
              have hout : getLeaf m.heap id = ⟨[], none, none⟩ := getLeaf_out_of_range hle
              have hset : ∀ ld, setLeaf m.heap id ld = m.heap := fun ld => by
                simp [setLeaf, List.set_eq_of_length_le hle]
              simp only [MapInv, hset, hout]
              simp [SortedKeys]
          · -- full: the split installs the two-leaf Intra root
            rcases Option.map_eq_some'.mp h with ⟨⟨r, m''⟩, hins, hsnd⟩
            cases hsnd
            rcases insert_leaf_full_shape hr k2 v hfs hfull r m'' hins with ⟨_, _, hroot⟩
            simp only [MapInv, hroot]
            exact ⟨id, m.heap.length, rfl, rfl⟩

/-- Sequences of non-panicking steps preserve the invariant. -/
theorem runFrom_inv {ops : List Op} {m m' : BTreeMap} (h : runFrom m ops = some m')
    (hI : MapInv m) : MapInv m' := by
  induction ops generalizing m with
  | nil =>
    simp [runFrom] at h
    exact h ▸ hI
  | cons op rest ih =>
    simp only [runFrom] at h
    split at h
    · cases h
    · rename_i m'' hstep
      exact ih h (step_inv hstep hI)

/-- Every reachable map satisfies the invariant. -/
theorem run_inv {ops : List Op} {m : BTreeMap} (h : run ops = some m) : MapInv m :=
  runFrom_inv h (by simp [MapInv, mapNew])

/-! ## Claim theorems: contracts -/

/-- C9: on a map with no root, `get`, `get_mut` and `remove` all return
absence without panicking and leave the map unchanged — `remove` included,
because `self.root.as_mut()?` short-circuits before ever reaching the
unimplemented `Node::remove`. -/
theorem empty_map_lookups_and_remove (m : BTreeMap) (q : Nat) (h : m.root = none) :
    BTreeMap.get m q = some none ∧ BTreeMap.getMut m q = some none ∧
    BTreeMap.remove m q = some (none, m) := by
  refine ⟨?_, ?_, ?_⟩ <;> simp [BTreeMap.get, BTreeMap.getMut, BTreeMap.remove, h]

/-- Witness for C9 at the concrete empty map and query `7`. -/
theorem empty_map_lookups_and_remove_witness :
    BTreeMap.get mapNew 7 = some none ∧ BTreeMap.getMut mapNew 7 = some none ∧
    BTreeMap.remove mapNew 7 = some (none, mapNew) :=
  empty_map_lookups_and_remove mapNew 7 rfl

/-- C8: (1) whenever `Node::insert` returns at all, any `Insert::Split`
it reports wraps one and the same new leaf as separator-leaf and right node
(`new_leaf.clone()` / `Node::Leaf(new_leaf)`); (2) in every reachable map,
every internal node's separators are identical (by leaf reference) to the
leftmost leaf of the following child — in particular the root split installs
the `(old root, new leaf)` head with the same new leaf as tail. -/
theorem separator_alias_identity :
    (∀ heap e nd res, Node.insert heap e nd = some res → splitReportOk res.fst = true) ∧
    (∀ ops m, run ops = some m → BTreeMap.sepOk m = true) := by
  constructor
  · intro heap e nd res hins
    cases nd with
    | intra hs tail => simp [Node.insert] at hins
    | leaf id =>
      simp only [Node.insert] at hins
      split at hins
      · injection hins with hins
        subst hins
        rfl
      · split at hins
        · split at hins
          · injection hins with hins
            subst hins
            rfl
          · cases hins
        · split at hins
          · split at hins
            · injection hins with hins
              subst hins
              simp [splitReportOk]
            · cases hins
          · split at hins
            · injection hins with hins
              subst hins
              simp [splitReportOk]
            · cases hins
  · intro ops m hrun
    rcases hr : m.root with _ | nd
    · simp [BTreeMap.sepOk, hr]
    · cases nd with
      | leaf id => simp [BTreeMap.sepOk, hr, Node.sepOk]
      | intra hs tail =>
        have hI : ∃ l s, hs = .cons (.leaf l) s .nil ∧ tail = .leaf s := by
          simpa [MapInv, hr] using run_inv hrun
        rcases hI with ⟨l, s, rfl, rfl⟩
        simp [BTreeMap.sepOk, hr, Node.sepOk, Heads.sepOk, Node.leftmostLeaf, Heads.leftmost]

/-- Witness for C8: the split of the full leaf `10..70` on inserting `45`
reports an aliased pair, and the reachable post-split map `stSplit` satisfies
the separator-identity invariant. -/
theorem separator_alias_identity_witness :
    splitReportOk ((Node.insert stFull.heap ((45, 0), 45) (.leaf 0)).getD (.ok, [])).fst
      = true ∧
    BTreeMap.sepOk stSplit = true :=
  ⟨separator_alias_identity.1 stFull.heap ((45, 0), 45) (.leaf 0) _ rfl,
   separator_alias_identity.2 opsSplitLow stSplit rfl⟩

/-- The entries of a map whose root is a leaf are that leaf's `data`. -/
theorem entries_leaf_root (m : BTreeMap) {id : Nat} (h : m.root = some (.leaf id)) :
    m.entries = (getLeaf m.heap id).data := by
  simp [BTreeMap.entries, h, Node.entries]

/-- C4 (amended to the implemented portion of the code): for every reachable
map, whenever `insert(key, value)` completes without panicking it returns the
previously stored value exactly when the key already existed (else absence);
on an existing key both the stored key object and the stored value are
replaced by the new ones and `len()` is unchanged, and on a fresh key `len()`
grows by exactly 1.  (As stated over *every* map the claim fails: on a
reachable `Intra`-rooted map even a duplicate insert panics, see the
counterexample.) -/
theorem insert_contract : ∀ ops m, run ops = some m → ∀ k t v r m',
    BTreeMap.insert m ((k, t), v) = some (r, m') →
    r = (m.findEntry k).map (·.snd) ∧
    (m.findEntry k = none → m'.length = m.length + 1) ∧
    (∀ e, m.findEntry k = some e → m'.length = m.length ∧
      m'.findEntry k = some ((k, t), v)) := by
  intro ops m hrun k t v r m' hins
  rcases hr : m.root with _ | nd
  · -- no root: the key is certainly fresh
    rw [insert_root_none hr ((k, t), v)] at hins
    injection hins with hins
    injection hins with h1 h2
    subst h1
    subst h2
    have hfe : m.findEntry k = none := by
      simp [BTreeMap.findEntry, BTreeMap.entries, hr]
    refine ⟨by simp [hfe], fun _ => rfl, fun e he => by rw [hfe] at he; cases he⟩
  · cases nd with
    | intra hs tail =>
      rw [insert_intra_panics hr] at hins
      cases hins
    | leaf id =>
      have hIl : SortedKeys (getLeaf m.heap id).data := by
        simpa [MapInv, hr] using run_inv hrun
      have hent : m.entries = (getLeaf m.heap id).data := entries_leaf_root m hr
      rcases hfs : findSlot (getLeaf m.heap id).data k with i | i
      · -- duplicate
        rcases findSlot_inl_get hfs with ⟨old, hold, holdk⟩
        have hilt : i < (getLeaf m.heap id).data.length :=
          (List.getElem?_eq_some.mp hold).1
        have hid : id < m.heap.length := by
          by_contra hge
          rw [getLeaf_out_of_range (by omega)] at hfs
          simp [findSlot] at hfs
        have hfe : m.findEntry k = some old := by
          rw [BTreeMap.findEntry, hent]
          exact sorted_find_at hIl hold holdk
        have hgetD : (getLeaf m.heap id).data.getD i default = old := by
          simp [List.getD_eq_getElem?_getD, hold]
        rw [insert_leaf_dup hr t v hfs] at hins
        injection hins with hins
        injection hins with h1 h2
        subst h1
        subst h2
        refine ⟨?_, ?_, ?_⟩
        · rw [hfe, hgetD]
          rfl
        · intro hc
          rw [hfe] at hc
          cases hc
        · intro e he
          refine ⟨rfl, ?_⟩
          have hnew : ((getLeaf m.heap id).data.set i ((k, t), v))[i]? = some ((k, t), v) :=
            List.getElem?_set_self (by simpa using hilt)
          have hsorted : SortedKeys ((getLeaf m.heap id).data.set i ((k, t), v)) :=
            set_sorted hIl hold (by simpa [keyOf] using holdk.symm)
          rw [BTreeMap.findEntry, entries_leaf_root ⟨m.length, some (.leaf id),
              setLeaf m.heap id { getLeaf m.heap id with
                data := (getLeaf m.heap id).data.set i ((k, t), v) }⟩ rfl]
          simp only [getLeaf_setLeaf_self hid]
          exact sorted_find_at hsorted hnew rfl
      · -- fresh key
        have hfe : m.findEntry k = none := by
          rw [BTreeMap.findEntry, hent]
          exact List.find?_eq_none.mpr (fun e he => by
            have := findSlot_inr_not_mem hIl hfs e he
            simp [keyOf] at this ⊢
            omega)
        by_cases hfull : (getLeaf m.heap id).data.length < MAX_LEN
        · rw [insert_leaf_nonfull hr t v hfs hfull] at hins
          injection hins with hins
          injection hins with h1 h2
          subst h1
          subst h2
          exact ⟨by simp [hfe], fun _ => rfl, fun e he => by rw [hfe] at he; cases he⟩
        · rcases insert_leaf_full_shape hr t v hfs hfull r m' hins with ⟨hre, hlen, _⟩
          exact ⟨by simp [hre, hfe], fun _ => hlen, fun e he => by rw [hfe] at he; cases he⟩

/-- Witness for C4 at a concrete reachable map: inserting the fresh key `25`
into `stFull` (keys `10..70`) returns absence and grows `len()` to 8;
`stFull` is reachable via `opsFull`. -/
theorem insert_contract_witness :
    stFull.findEntry 25 = none ∧
    ((BTreeMap.insert stFull ((25, 0), 25)).map (fun p => (p.fst, p.snd.length))
      = some (none, 8)) := by
  have hins : BTreeMap.insert stFull ((25, 0), 25) =
      some ((BTreeMap.insert stFull ((25, 0), 25)).getD (none, mapNew)) := rfl
  have h := insert_contract opsFull stFull rfl 25 0 25
    ((BTreeMap.insert stFull ((25, 0), 25)).getD (none, mapNew)).fst
    ((BTreeMap.insert stFull ((25, 0), 25)).getD (none, mapNew)).snd hins
  refine ⟨rfl, ?_⟩
  rw [hins, Option.map_some']
  rw [h.1, h.2.1 rfl]
  rfl

/-- C10 (amended to the implemented portion of the code): on every reachable
map whose root is a leaf, inserting an already-present key completes without
a split — even when the leaf is full — and changes nothing but the matched
entry: the root (hence the tree shape), the other entries of the leaf, the
ring links and `len()` are all untouched, the heap being modified only by
`List.set` of the matched slot.  (Over *every* reachable map the claim fails:
on an `Intra`-rooted map the duplicate insert panics, see the
counterexample.) -/
theorem duplicate_insert_frame : ∀ ops m, run ops = some m →
    ∀ id, m.root = some (.leaf id) → ∀ k t v, m.hasKey k = true →
    ∃ i old, (getLeaf m.heap id).data[i]? = some old ∧ keyOf old = k ∧
      BTreeMap.insert m ((k, t), v) =
        some (some old.snd, ⟨m.length, m.root,
          setLeaf m.heap id { getLeaf m.heap id with
            data := (getLeaf m.heap id).data.set i ((k, t), v) }⟩) := by
  intro ops m hrun id hr k t v hk
  have hIl : SortedKeys (getLeaf m.heap id).data := by
    simpa [MapInv, hr] using run_inv hrun
  have hmem : ∃ e ∈ (getLeaf m.heap id).data, keyOf e = k := by
    rw [BTreeMap.hasKey, entries_leaf_root m hr] at hk
    rcases List.any_eq_true.mp hk with ⟨e, he, hke⟩
    exact ⟨e, he, by simpa using hke⟩
  rcases hfs : findSlot (getLeaf m.heap id).data k with i | i
  · rcases findSlot_inl_get hfs with ⟨old, hold, holdk⟩
    have hgetD : (getLeaf m.heap id).data.getD i default = old := by
      simp [List.getD_eq_getElem?_getD, hold]
    refine ⟨i, old, hold, holdk, ?_⟩
    rw [insert_leaf_dup hr t v hfs, hgetD, hr]
  · exfalso
    rcases hmem with ⟨e, he, hke⟩
    exact findSlot_inr_not_mem hIl hfs e he hke

/-- Witness for C10: `stFull` (reachable via `opsFull`) has a full root leaf
containing key `30`; the duplicate insert of `30` completes, returns the old
value, performs no split, and modifies only the matched slot. -/
theorem duplicate_insert_frame_witness :
    stFull.hasKey 30 = true ∧
    ∃ i old, (getLeaf stFull.heap 0).data[i]? = some old ∧ keyOf old = 30 ∧
      BTreeMap.insert stFull ((30, 7), 99) =
        some (some old.snd, ⟨stFull.length, stFull.root,
          setLeaf stFull.heap 0 { getLeaf stFull.heap 0 with
            data := (getLeaf stFull.heap 0).data.set i ((30, 7), 99) }⟩) :=
  ⟨rfl, duplicate_insert_frame opsFull stFull rfl 0 rfl 30 7 99 rfl⟩

/-! ## Lemmas: the spec-modelled removal -/

mutual

/-- When the modelled removal finds nothing under a node, it leaves the leaf
heap untouched. -/
theorem node_removeSpec_not_found (heap : Heap) (q : Nat) (nd : Node)
    (h : (Node.removeSpec heap q nd).fst = none) :
    (Node.removeSpec heap q nd).snd = heap := by
  cases nd with
  | leaf id =>
    simp only [Node.removeSpec] at h ⊢
    split
    · rename_i heq
      rw [heq] at h
      cases h
    · rfl
  | intra hs tail =>
    simp only [Node.removeSpec] at h ⊢
    split
    · rename_i heq
      rw [heq] at h
      cases h
    · rename_i h2 heq
      rw [heq] at h
      have hh : h2 = heap := by
        have := heads_removeSpec_not_found heap q hs (by rw [heq])
        rw [heq] at this
        exact this
      rw [hh] at h ⊢
      exact node_removeSpec_not_found heap q tail h

/-- When the modelled removal finds nothing under a `heads` sequence, it
leaves the leaf heap untouched. -/
theorem heads_removeSpec_not_found (heap : Heap) (q : Nat) (hs : Heads)
    (h : (Heads.removeSpec heap q hs).fst = none) :
    (Heads.removeSpec heap q hs).snd = heap := by
  cases hs with
  | nil => rfl
  | cons child sep rest =>
    simp only [Heads.removeSpec] at h ⊢
    split
    · rename_i heq
      rw [heq] at h
      cases h
    · rename_i h2 heq
      rw [heq] at h
      have hh : h2 = heap := by
        have := node_removeSpec_not_found heap q child (by rw [heq])
        rw [heq] at this
        exact this
      rw [hh] at h ⊢
      exact heads_removeSpec_not_found heap q rest h

end

mutual

/-- The value returned by the modelled removal is exactly the first entry
with the queried key in tree order. -/
theorem node_removeSpec_find (heap : Heap) (q : Nat) (nd : Node) :
    (Node.removeSpec heap q nd).fst =
      (Node.entries heap nd).find? (fun e => keyOf e == q) := by
  cases nd with
  | leaf id =>
    simp only [Node.removeSpec, Node.entries]
    split
    · rename_i heq
      rw [heq]
    · rename_i heq
      rw [heq]
  | intra hs tail =>
    simp only [Node.removeSpec, Node.entries, List.find?_append]
    split
    · rename_i e h2 heq
      have := heads_removeSpec_find heap q hs
      rw [heq] at this
      rw [← this]
      simp
    · rename_i h2 heq
      have hfst := heads_removeSpec_find heap q hs
      rw [heq] at hfst
      have hh : h2 = heap := by
        have := heads_removeSpec_not_found heap q hs (by rw [heq])
        rw [heq] at this
        exact this
      rw [hh]
      rw [← hfst, Option.none_or]
      exact node_removeSpec_find heap q tail

/-- The value returned by the modelled removal on a `heads` sequence is
exactly the first entry with the queried key among its children's entries. -/
theorem heads_removeSpec_find (heap : Heap) (q : Nat) (hs : Heads) :
    (Heads.removeSpec heap q hs).fst =
      (Heads.entries heap hs).find? (fun e => keyOf e == q) := by
  cases hs with
  | nil => rfl
  | cons child sep rest =>
    simp only [Heads.removeSpec, Heads.entries, List.find?_append]
    split
    · rename_i e h2 heq
      have := node_removeSpec_find heap q child
      rw [heq] at this
      rw [← this]
      simp
    · rename_i h2 heq
      have hfst := node_removeSpec_find heap q child
      rw [heq] at hfst
      have hh : h2 = heap := by
        have := node_removeSpec_not_found heap q child (by rw [heq])
        rw [heq] at this
        exact this
      rw [hh]
      rw [← hfst, Option.none_or]
      exact heads_removeSpec_find heap q rest

end

/-- C7 (with `Node::remove`'s missing body modelled from the spec): for every
map and every query, removal is total (it never fails — the result type is a
plain pair), returns the removed value exactly when the key is present and
absence otherwise, leaves the map unchanged when the key is absent, and
decrements `len()` by exactly one on an actual removal. -/
theorem removeModelled_contract : ∀ m q,
    (BTreeMap.removeModelled m q).fst = (m.findEntry q).map (·.snd) ∧
    (m.findEntry q = none → BTreeMap.removeModelled m q = (none, m)) ∧
    ((m.findEntry q).isSome = true →
      (BTreeMap.removeModelled m q).snd.length = m.length - 1 ∧
      (1 ≤ m.length → (BTreeMap.removeModelled m q).snd.length + 1 = m.length)) := by
  intro m q
  rcases hr : m.root with _ | nd
  · refine ⟨?_, fun _ => ?_, fun hsome => ?_⟩
    · simp [BTreeMap.removeModelled, BTreeMap.findEntry, BTreeMap.entries, hr]
    · simp [BTreeMap.removeModelled, hr]
    · rw [BTreeMap.findEntry] at hsome
      simp [BTreeMap.entries, hr] at hsome
  · have hfind : (Node.removeSpec m.heap q nd).fst =
        (Node.entries m.heap nd).find? (fun e => keyOf e == q) := node_removeSpec_find m.heap q nd
    have hfe : m.findEntry q = (Node.entries m.heap nd).find? (fun e => keyOf e == q) := by
      simp [BTreeMap.findEntry, BTreeMap.entries, hr]
    rcases hrs : Node.removeSpec m.heap q nd with ⟨res, heap2⟩
    rw [hrs] at hfind
    cases res with
    | none =>
      have hsnd : heap2 = m.heap := by
        have := node_removeSpec_not_found m.heap q nd (by rw [hrs])
        rw [hrs] at this
        exact this
      subst hsnd
      have hnone : m.findEntry q = none := by rw [hfe, ← hfind]
      have hrm : BTreeMap.removeModelled m q = (none, m) := by
        simp only [BTreeMap.removeModelled, hr, hrs]
        congr 1
        rw [← hr]
      refine ⟨by simp [hnone, hrm], fun _ => hrm, fun hsome => ?_⟩
      rw [hnone] at hsome
      simp at hsome
    | some e =>
      have hsome : m.findEntry q = some e := by rw [hfe, ← hfind]
      have hrm : BTreeMap.removeModelled m q =
          (some e.snd, ⟨m.length - 1, some nd, heap2⟩) := by
        simp only [BTreeMap.removeModelled, hr, hrs]
      refine ⟨?_, ?_, ?_⟩
      · simp [hsome, hrm]
      · intro hc
        rw [hsome] at hc
        cases hc
      · intro _
        rw [hrm]
        refine ⟨rfl, fun h1 => ?_⟩
        show m.length - 1 + 1 = m.length
        omega

/-- Witness for C7: removing key `6` from the reachable post-split map
`stSplit` returns its value `60` and shrinks `len()` from 8 back by one. -/
theorem removeModelled_contract_witness :
    (BTreeMap.removeModelled stSplit 6).fst = some 60 ∧
    (BTreeMap.removeModelled stSplit 6).snd.length + 1 = stSplit.length := by
  have h := removeModelled_contract stSplit 6
  refine ⟨?_, ?_⟩
  · rw [h.1]
    rfl
  · exact (h.2.2 rfl).2 (by decide)
